import Mathlib

/-!
Verification of the image persistence pipeline of the gemini-image-mcp-server
repository (src/src/services/gemini.ts `ImageService`, and
src/src/tools/generateImage.ts `handleGenerateImage`).

The TypeScript code is shallowly embedded: strings become `List Char`
(JavaScript strings at the code-point level; all characters the pipeline
keeps are in the Basic Multilingual Plane, where code points and UTF-16
units coincide), the filesystem becomes an explicit snapshot
(`FsState`), the external collaborators (base64 decoding via
`Buffer.from`, pixel compositing via `sharp`) become function parameters,
and the wall clock becomes an explicit ISO-8601 string parameter.
-/

namespace GeminiImageMcp

/-! ## Character classes

`jsIsWs` is the character set matched by the JavaScript regular
expression class `\s` (ECMA-262 WhiteSpace plus LineTerminator), which is
also the set trimmed by `String.prototype.trim`. `isAsciiAlnum` is the
regular expression class `[a-zA-Z0-9]`. -/

def jsIsWs (c : Char) : Bool :=
  decide (c.toNat = 9) || decide (c.toNat = 10) || decide (c.toNat = 11) ||
  decide (c.toNat = 12) || decide (c.toNat = 13) || decide (c.toNat = 32) ||
  decide (c.toNat = 160) || decide (c.toNat = 0x1680) ||
  (decide (0x2000 ≤ c.toNat) && decide (c.toNat ≤ 0x200a)) ||
  decide (c.toNat = 0x2028) || decide (c.toNat = 0x2029) ||
  decide (c.toNat = 0x202f) || decide (c.toNat = 0x205f) ||
  decide (c.toNat = 0x3000) || decide (c.toNat = 0xfeff)

def isAsciiAlnum (c : Char) : Bool :=
  (decide (48 ≤ c.toNat) && decide (c.toNat ≤ 57)) ||
  (decide (65 ≤ c.toNat) && decide (c.toNat ≤ 90)) ||
  (decide (97 ≤ c.toNat) && decide (c.toNat ≤ 122))

def isAsciiDigit (c : Char) : Bool :=
  decide (48 ≤ c.toNat) && decide (c.toNat ≤ 57)

/-! ## Filename deriver (gemini.ts, `ImageService.saveImage`, lines 121-131)

`extension` : `imageData.mimeType === 'image/png' ? '.png' : ... : '.png'`.
`timestamp` : `new Date().toISOString().replace(/[:.]/g, '-').slice(0, -5)`.
`safeDescription` : `description ? description.replace(/[^a-zA-Z0-9\s]/g,
'').replace(/\s+/g, '_').slice(0, 50) : 'image'` (the ternary takes the
`'image'` branch exactly when `description` is absent or the empty
string, JavaScript falsiness). -/

def extensionFor (mimeType : String) : String :=
  if mimeType = "image/png" then ".png"
  else if mimeType = "image/jpeg" then ".jpg"
  else if mimeType = "image/webp" then ".webp"
  else ".png"

/-- The global regex replace `/\s+/g → '_'`: the scanner emits `'_'` at the
first character of each whitespace run and skips the rest of the run. The
Boolean flag records whether the previous character was part of a run. -/
def replaceWsRuns : List Char → Bool → List Char
  | [], _ => []
  | c :: rest, inRun =>
    if jsIsWs c then
      if inRun then replaceWsRuns rest true
      else '_' :: replaceWsRuns rest true
    else c :: replaceWsRuns rest false

/-- The strip step, description.replace of the class outside alnum and whitespace by the empty string. -/
def stripDisallowed (l : List Char) : List Char :=
  l.filter fun c => isAsciiAlnum c || jsIsWs c

/-- The full sanitization pipeline applied to a truthy description:
strip, collapse whitespace runs to underscores, `slice(0, 50)`. -/
def sanitizeChars (l : List Char) : List Char :=
  (replaceWsRuns (stripDisallowed l) false).take 50

def safeDescriptionOf (description : Option String) : List Char :=
  match description with
  | none => "image".data
  | some d => if d = "" then "image".data else sanitizeChars d.data

/-- The timestamp step, iso.replace of colon and dot by a hyphen followed by
slice(0, -5), applied to the `Date.prototype.toISOString` output. -/
def timestampChars (isoNow : String) : List Char :=
  let replaced := isoNow.data.map fun c => if c = ':' ∨ c = '.' then '-' else c
  replaced.take (replaced.length - 5)

/-- The assembled filename: safe description, underscore, timestamp,
extension. -/
def filenameChars (description : Option String) (isoNow : String)
    (mimeType : String) : List Char :=
  safeDescriptionOf description ++ '_' :: (timestampChars isoNow ++ (extensionFor mimeType).data)

example : sanitizeChars "Hello,  world!".data = "Hello_world".data := by decide
example : sanitizeChars "!!!".data = [] := by decide
example : timestampChars "2025-01-02T03:04:05.123Z" = "2025-01-02T03-04-05".data := by decide
example : filenameChars (some "a cat") "2025-01-02T03:04:05.123Z" "image/webp"
    = "a_cat_2025-01-02T03-04-05.webp".data := by decide

/-! ## POSIX path model (Node `path.resolve`, `path.join`, `path.extname`)

Paths are split on `'/'` into segments; normalization runs the usual
stack machine (empty and `"."` segments dropped, `".."` pops — on an
absolute path a `".."` at the root is discarded, as in Node). `resolve`
makes a path absolute against the current working directory and
normalizes it; `join` concatenates and normalizes. The server runs these
only on absolute first arguments (Node `resolve` output), which is the
domain this model covers. -/

def splitSegs : List Char → List (List Char)
  | [] => [[]]
  | c :: cs =>
    if c = '/' then [] :: splitSegs cs
    else
      match splitSegs cs with
      | [] => [[c]]
      | s :: ss => (c :: s) :: ss

/-- The normalization stack machine. `acc` holds the segments kept so
far, most recent first. -/
def normStack : List (List Char) → List (List Char) → List (List Char)
  | acc, [] => acc
  | acc, s :: rest =>
    if s = [] then normStack acc rest
    else if s = ['.'] then normStack acc rest
    else if s = ['.', '.'] then normStack acc.tail rest
    else normStack (s :: acc) rest

def joinSegs : List (List Char) → List Char
  | [] => []
  | [s] => s
  | s :: rest => s ++ '/' :: joinSegs rest

/-- Render a normalization stack as an absolute path string. -/
def renderAbs (stack : List (List Char)) : List Char :=
  '/' :: joinSegs stack.reverse

/-- Node `path.resolve(cwd, p)`: if `p` is absolute the cwd is ignored,
otherwise `p` is resolved against it; the result is normalized. -/
def resolveChars (cwd p : List Char) : List Char :=
  if p.head? = some '/' then renderAbs (normStack [] (splitSegs p))
  else renderAbs (normStack [] (splitSegs cwd ++ splitSegs p))

/-- Node `path.join(a, b)` for an absolute `a`: concatenate and
normalize. -/
def joinAbsChars (a b : List Char) : List Char :=
  renderAbs (normStack [] (splitSegs a ++ splitSegs b))

/-- Last dot of a basename: `extSplit b` is the suffix of `b` starting at
its last `'.'`, or `none` when `b` has no dot. -/
def extSplit : List Char → Option (List Char)
  | [] => none
  | c :: rest =>
    match extSplit rest with
    | some e => some e
    | none => if c = '.' then some (c :: rest) else none

def stripTrailingSeps (l : List Char) : List Char :=
  (l.reverse.dropWhile fun c => c = '/').reverse

/-- Node `path.extname`: the suffix of the basename from its last dot,
empty when there is no dot, the dot is the basename's first character,
or the basename is `".."`. -/
def extnameChars (p : List Char) : List Char :=
  let b := (splitSegs (stripTrailingSeps p)).getLastD []
  if b = ['.', '.'] then []
  else
    match extSplit b with
    | none => []
    | some e => if e.length = b.length then [] else e

/-- The trailing-separator test outputPath.endsWith('/'). -/
def endsWithSep (p : List Char) : Bool :=
  p.getLast? = some '/'

example : resolveChars "/work".data "./out/result.png".data = "/work/out/result.png".data := by
  decide
example : resolveChars "/a/b".data "/c/../d".data = "/d".data := by decide
example : joinAbsChars "/work/out/result.png".data ['.', '.'] = "/work/out".data := by decide
example : extnameChars "./out/result.png".data = ".png".data := by decide
example : extnameChars "./out".data = [] := by decide
example : extnameChars ".bashrc".data = [] := by decide

/-! ## Filesystem snapshot and `ImageService.resolvePath` -/

structure FsState where
  cwd : String
  pathExists : String → Bool

/-- gemini.ts lines 151-167. `!outputPath` is true exactly for a missing
or empty hint; otherwise the hint is resolved, and the directory branch
is taken when it ends in `'/'` or has no extension and its resolution
exists on disk. -/
def resolvePath (fs : FsState) (outputPath : Option String) (filename : List Char) :
    List Char :=
  match outputPath with
  | none => resolveChars fs.cwd.data filename
  | some p =>
    if p = "" then resolveChars fs.cwd.data filename
    else
      let resolvedPath := resolveChars fs.cwd.data p.data
      if endsWithSep p.data || (decide (extnameChars p.data = []) && fs.pathExists (String.mk resolvedPath)) then
        joinAbsChars resolvedPath filename
      else resolvedPath

/-! ## `ImageService.saveImage` (gemini.ts lines 118-149)

`Buffer.from(base64, 'base64')` and the `sharp` compositing pipeline are
external collaborators; they enter the model as the function parameters
`decode` and `composite`. The wall clock enters as `isoNow`, the
`Date.prototype.toISOString` output. The returned record captures the
function's result and its filesystem effects. -/

structure ImageData where
  base64 : String
  mimeType : String
deriving DecidableEq

inductive WatermarkPosition
  | topLeft
  | topRight
  | bottomLeft
  | bottomRight
deriving DecidableEq

structure SaveImageOptions where
  outputPath : Option String := none
  description : Option String := none
  watermarkPath : Option String := none
  watermarkPosition : Option WatermarkPosition := none
deriving DecidableEq

structure SaveResult where
  returnedPath : String
  writtenPath : String
  writtenBytes : List Nat
  ensuredDir : String
  mkdirCalled : Bool
  watermarkApplied : Bool
deriving DecidableEq

/-- Whether the watermark branch at line 140 runs:
`watermarkPath && existsSync(resolve(watermarkPath))`
(an empty-string path is falsy and skips the branch). -/
def watermarkActive (fs : FsState) (watermarkPath : Option String) : Bool :=
  match watermarkPath with
  | none => false
  | some wp => !(wp == "") && fs.pathExists (String.mk (resolveChars fs.cwd.data wp.data))

def saveImage (decode : String → List Nat)
    (composite : List Nat → String → WatermarkPosition → List Nat)
    (fs : FsState) (isoNow : String)
    (imageData : ImageData) (options : SaveImageOptions) : SaveResult :=
  let filename := filenameChars options.description isoNow imageData.mimeType
  let finalPath := resolvePath fs options.outputPath filename
  let rawBuffer := decode imageData.base64
  let buffer :=
    match options.watermarkPath with
    | none => rawBuffer
    | some wp =>
      if !(wp == "") && fs.pathExists (String.mk (resolveChars fs.cwd.data wp.data)) then
        composite rawBuffer wp (options.watermarkPosition.getD WatermarkPosition.bottomRight)
      else rawBuffer
  let ensuredDir := joinAbsChars finalPath ['.', '.']
  { returnedPath := String.mk finalPath
    writtenPath := String.mk finalPath
    writtenBytes := buffer
    ensuredDir := String.mk ensuredDir
    mkdirCalled := !fs.pathExists (String.mk ensuredDir)
    watermarkApplied := watermarkActive fs options.watermarkPath }

/-! ## Watermark placement geometry (`ImageService.addWatermark`, lines 169-219)

The pixel work is done by `sharp`; what the function itself computes is
the bounding box, the padding and the `(left, top)` placement. `a || b`
on a possibly-undefined number is modelled by `jsOrNat`: the default is
substituted when the value is absent (and, per JavaScript falsiness, when
it is `0`).

`Math.floor(imageWidth * 0.25)` is modelled as `imageWidth / 4` and
`Math.floor(imageWidth * 0.03)` as `3 * imageWidth / 100`: for every
width below 2^40 the binary64 products land strictly inside the same
unit interval (the relative error of the two roundings is below 2^-52,
far smaller than the 1/100 distance from the nearest integer, and exact
multiples are recovered exactly because the error is under half an ulp),
so the floors coincide with the exact rational floors. -/

structure ImageMetadata where
  width : Option Nat
  height : Option Nat
deriving DecidableEq

def jsOrNat (v : Option Nat) (d : Nat) : Nat :=
  match v with
  | none => d
  | some n => if n = 0 then d else n

def watermarkSizeOf (imageWidth : Nat) : Nat := imageWidth / 4

def paddingOf (imageWidth : Nat) : Nat := 3 * imageWidth / 100

def isRightPos : WatermarkPosition → Bool
  | .topRight => true
  | .bottomRight => true
  | _ => false

def isBottomPos : WatermarkPosition → Bool
  | .bottomLeft => true
  | .bottomRight => true
  | _ => false

/-- The placement computation of `addWatermark`: primary-image metadata,
resized-watermark metadata, and the (defaulted) corner give the composite
offsets `(left, top)` together with the bounding-box side used for the
resize. -/
def addWatermarkLayout (imageMeta wmMeta : ImageMetadata)
    (position : Option WatermarkPosition) : Int × Int :=
  let imageWidth := jsOrNat imageMeta.width 1024
  let imageHeight := jsOrNat imageMeta.height 1024
  let watermarkSize := watermarkSizeOf imageWidth
  let watermarkWidth := jsOrNat wmMeta.width watermarkSize
  let watermarkHeight := jsOrNat wmMeta.height watermarkSize
  let padding := paddingOf imageWidth
  let pos := position.getD WatermarkPosition.bottomRight
  let left : Int :=
    if isRightPos pos then (imageWidth : Int) - (watermarkWidth : Int) - (padding : Int)
    else (padding : Int)
  let top : Int :=
    if isBottomPos pos then (imageHeight : Int) - (watermarkHeight : Int) - (padding : Int)
    else (padding : Int)
  (left, top)

example : addWatermarkLayout ⟨some 1000, some 1000⟩ ⟨some 200, some 250⟩ none
    = (1000 - 200 - 30, 1000 - 250 - 30) := by decide

/-! ## `handleGenerateImage` (generateImage.ts lines 52-84)

The remote model call is the external collaborator `genOutcome`. The
record traces the observable effects: whether the remote model was
reached and which filesystem effects happened. The validation
`!args.description || !args.description.trim()` throws `invalidParams`
before the `try` block, so it is surfaced unwrapped, with no effect
having occurred. Errors inside the `try` are wrapped by `ensureMcpError`
with fallback code `InternalError`. -/

inductive McpErrorKind
  | invalidParams (message : String)
  | internalError (message : String)
deriving DecidableEq

structure GenerateImageArgs where
  description : Option String := none
  outputPath : Option String := none
  watermarkPath : Option String := none
  watermarkPosition : Option WatermarkPosition := none
deriving DecidableEq

deriving instance DecidableEq for Except

structure HandlerResult where
  modelCalled : Bool
  fileWritten : Option (String × List Nat)
  dirEnsured : Option String
  mkdirCalled : Bool
  outcome : Except McpErrorKind String
deriving DecidableEq

def jsTrim (l : List Char) : List Char :=
  ((l.dropWhile jsIsWs).reverse.dropWhile jsIsWs).reverse

/-- The handler validity test: description absent, empty, or empty after
trim. -/
def descriptionInvalid (d : Option String) : Bool :=
  match d with
  | none => true
  | some s => s == "" || jsTrim s.data == []

def handleGenerateImage (decode : String → List Nat)
    (composite : List Nat → String → WatermarkPosition → List Nat)
    (fs : FsState) (isoNow : String)
    (genOutcome : Except String ImageData)
    (args : GenerateImageArgs) : HandlerResult :=
  if descriptionInvalid args.description then
    { modelCalled := false
      fileWritten := none
      dirEnsured := none
      mkdirCalled := false
      outcome := Except.error
        (McpErrorKind.invalidParams "Description is required to generate an image") }
  else
    match genOutcome with
    | Except.error _ =>
      { modelCalled := true
        fileWritten := none
        dirEnsured := none
        mkdirCalled := false
        outcome := Except.error (McpErrorKind.internalError "Failed to generate image") }
    | Except.ok imageData =>
      let r := saveImage decode composite fs isoNow imageData
        { outputPath := args.outputPath
          description := args.description
          watermarkPath := args.watermarkPath
          watermarkPosition := args.watermarkPosition }
      { modelCalled := true
        fileWritten := some (r.writtenPath, r.writtenBytes)
        dirEnsured := some r.ensuredDir
        mkdirCalled := r.mkdirCalled
        outcome := Except.ok r.returnedPath }

/-! ## Claim-side definitions

These follow the wording of the specification, to be compared with the
definitions above that follow the source. -/

/-- The spec's "every maximal whitespace run replaced by a single
underscore", phrased directly on runs: each maximal whitespace run
contributes exactly one underscore, emitted at the run's last
character. -/
def collapseRuns : List Char → List Char
  | [] => []
  | c :: rest =>
    if jsIsWs c then
      match rest with
      | [] => ['_']
      | d :: _ => if jsIsWs d then collapseRuns rest else '_' :: collapseRuns rest
    else c :: collapseRuns rest

/-- The spec's sanitization pipeline for a non-empty description: strip
characters outside `[A-Za-z0-9\s]`, collapse maximal whitespace runs to
single underscores, truncate to at most 50 characters. -/
def specSanitize (l : List Char) : List Char :=
  (collapseRuns (l.filter fun c => isAsciiAlnum c || jsIsWs c)).take 50

/-- The four-case path-resolution contract as the claim states it, in
order: no hint (a missing or, per JavaScript falsiness, empty hint)
resolves the filename against the cwd; a hint ending in `'/'` is a
directory; an extension-less hint whose resolution exists is a
directory; otherwise the hint (resolved) is itself the target and the
filename is discarded. -/
def resolvePathSpec (fs : FsState) (outputPath : Option String) (filename : List Char) :
    List Char :=
  match outputPath with
  | none => resolveChars fs.cwd.data filename
  | some p =>
    if p = "" then resolveChars fs.cwd.data filename
    else if endsWithSep p.data then
      joinAbsChars (resolveChars fs.cwd.data p.data) filename
    else if extnameChars p.data = [] ∧ fs.pathExists (String.mk (resolveChars fs.cwd.data p.data)) = true then
      joinAbsChars (resolveChars fs.cwd.data p.data) filename
    else resolveChars fs.cwd.data p.data

/-- A well-formed `Date.prototype.toISOString` output,
`YYYY-MM-DDTHH:MM:SS.mmmZ`, with its seventeen digit characters given
explicitly. -/
def mkIsoChars (y1 y2 y3 y4 mo1 mo2 d1 d2 h1 h2 mi1 mi2 s1 s2 f1 f2 f3 : Char) :
    List Char :=
  [y1, y2, y3, y4, '-', mo1, mo2, '-', d1, d2, 'T',
   h1, h2, ':', mi1, mi2, ':', s1, s2, '.', f1, f2, f3, 'Z']

/-- The shape the claim assigns to the rendered timestamp,
`YYYY-MM-DDTHH-MM-SS`. -/
def mkTimestampShape (y1 y2 y3 y4 mo1 mo2 d1 d2 h1 h2 mi1 mi2 s1 s2 : Char) :
    List Char :=
  [y1, y2, y3, y4, '-', mo1, mo2, '-', d1, d2, 'T',
   h1, h2, '-', mi1, mi2, '-', s1, s2]

/-! ## Helper lemmas -/

theorem replaceWsRuns_eq_collapseRuns (l : List Char) :
    replaceWsRuns l false = collapseRuns l ∧
    replaceWsRuns l true = collapseRuns (l.dropWhile jsIsWs) := by
  induction l with
  | nil => constructor <;> rfl
  | cons c rest ih =>
    by_cases h : jsIsWs c
    · refine ⟨?_, ?_⟩
      · cases rest with
        | nil => simp [replaceWsRuns, collapseRuns, h]
        | cons d t =>
          by_cases hd : jsIsWs d
          · have hfold : replaceWsRuns (d :: t) false = collapseRuns (d :: t) := ih.1
            simp only [replaceWsRuns, hd, if_pos, h] at hfold ⊢
            simp only [collapseRuns, h, if_pos, hd, List.dropWhile, ih.2] at hfold ⊢
            simpa [List.dropWhile, hd] using hfold
          · have h1 := ih.1
            simp only [replaceWsRuns, collapseRuns, hd, Bool.false_eq_true, if_false,
              List.cons.injEq, true_and] at h1
            simp [replaceWsRuns, collapseRuns, List.dropWhile, h, hd, h1]
      · simp [replaceWsRuns, collapseRuns, List.dropWhile, h, ih.2]
    · simp [replaceWsRuns, collapseRuns, List.dropWhile, h, ih.1]

/-- A path segment that the normalization stack machine pushes
unchanged: neither empty nor `"."` nor `".."`. -/
def plainSeg (s : List Char) : Prop :=
  s ≠ [] ∧ s ≠ ['.'] ∧ s ≠ ['.', '.']

theorem splitSegs_ne_nil (l : List Char) : splitSegs l ≠ [] := by
  induction l with
  | nil => simp [splitSegs]
  | cons c cs ih =>
    simp only [splitSegs]
    split
    · simp
    · split
      · simp
      · simp

theorem splitSegs_no_sep {l s : List Char} (hs : s ∈ splitSegs l) : ('/' : Char) ∉ s := by
  induction l generalizing s with
  | nil =>
    simp only [splitSegs, List.mem_singleton] at hs
    simp [hs]
  | cons c cs ih =>
    simp only [splitSegs] at hs
    by_cases hc : c = '/'
    · rw [if_pos hc] at hs
      rcases List.mem_cons.mp hs with h | h
      · simp [h]
      · exact ih h
    · rw [if_neg hc] at hs
      rcases hsplit : splitSegs cs with _ | ⟨s0, ss⟩
      · exact absurd hsplit (splitSegs_ne_nil cs)
      · rw [hsplit] at hs
        rcases List.mem_cons.mp hs with h | h
        · subst h
          intro hmem
          rcases List.mem_cons.mp hmem with h | h
          · exact hc h.symm
          · exact ih (hsplit ▸ List.mem_cons_self s0 ss) h
        · exact ih (hsplit ▸ List.mem_cons_of_mem s0 h)

theorem splitSegs_of_no_sep {s : List Char} (hs : ('/' : Char) ∉ s) :
    splitSegs s = [s] := by
  induction s with
  | nil => rfl
  | cons c cs ih =>
    have hc : ¬(c = '/') := fun h => hs (h ▸ List.mem_cons_self c cs)
    have hcs : ('/' : Char) ∉ cs := fun h => hs (List.mem_cons_of_mem c h)
    simp only [splitSegs, if_neg hc, ih hcs]

theorem splitSegs_append_sep {s : List Char} (t : List Char) (hs : ('/' : Char) ∉ s) :
    splitSegs (s ++ '/' :: t) = s :: splitSegs t := by
  induction s with
  | nil => simp [splitSegs]
  | cons c cs ih =>
    have hc : ¬(c = '/') := fun h => hs (h ▸ List.mem_cons_self c cs)
    have hcs : ('/' : Char) ∉ cs := fun h => hs (List.mem_cons_of_mem c h)
    simp only [List.cons_append, splitSegs, if_neg hc, List.append_eq, ih hcs]

theorem splitSegs_joinSegs {segs : List (List Char)} (hne : segs ≠ [])
    (hsep : ∀ s ∈ segs, ('/' : Char) ∉ s) :
    splitSegs (joinSegs segs) = segs := by
  induction segs with
  | nil => exact absurd rfl hne
  | cons s rest ih =>
    cases rest with
    | nil => exact splitSegs_of_no_sep (hsep s (List.mem_cons_self s []))
    | cons s1 rest1 =>
      have hjoin : joinSegs (s :: s1 :: rest1) = s ++ '/' :: joinSegs (s1 :: rest1) := rfl
      rw [hjoin, splitSegs_append_sep _ (hsep s (List.mem_cons_self _ _)),
        ih (by simp) fun u hu => hsep u (List.mem_cons_of_mem s hu)]

theorem normStack_append (l₁ l₂ : List (List Char)) (acc : List (List Char)) :
    normStack acc (l₁ ++ l₂) = normStack (normStack acc l₁) l₂ := by
  induction l₁ generalizing acc with
  | nil => rfl
  | cons s r ih =>
    by_cases h1 : s = []
    · simp [normStack, h1, ih]
    · by_cases h2 : s = ['.']
      · simp [normStack, h1, h2, ih]
      · by_cases h3 : s = ['.', '.']
        · simp [normStack, h1, h2, h3, ih]
        · simp [normStack, h1, h2, h3, ih]

theorem mem_normStack {l acc : List (List Char)} {s : List Char}
    (hs : s ∈ normStack acc l) : s ∈ acc ∨ (s ∈ l ∧ plainSeg s) := by
  induction l generalizing acc with
  | nil => exact Or.inl hs
  | cons a r ih =>
    by_cases h1 : a = []
    · rw [show normStack acc (a :: r) = normStack acc r by simp [normStack, h1]] at hs
      rcases ih hs with h | h
      · exact Or.inl h
      · exact Or.inr ⟨List.mem_cons_of_mem a h.1, h.2⟩
    · by_cases h2 : a = ['.']
      · rw [show normStack acc (a :: r) = normStack acc r by simp [normStack, h1, h2]] at hs
        rcases ih hs with h | h
        · exact Or.inl h
        · exact Or.inr ⟨List.mem_cons_of_mem a h.1, h.2⟩
      · by_cases h3 : a = ['.', '.']
        · rw [show normStack acc (a :: r) = normStack acc.tail r by
            simp [normStack, h1, h2, h3]] at hs
          rcases ih hs with h | h
          · cases acc with
            | nil => exact absurd h (List.not_mem_nil s)
            | cons x xs => exact Or.inl (List.mem_cons_of_mem x h)
          · exact Or.inr ⟨List.mem_cons_of_mem a h.1, h.2⟩
        · rw [show normStack acc (a :: r) = normStack (a :: acc) r by
            simp [normStack, h1, h2, h3]] at hs
          rcases ih hs with h | h
          · rcases List.mem_cons.mp h with h | h
            · exact Or.inr ⟨h ▸ List.mem_cons_self a r, h ▸ ⟨h1, h2, h3⟩⟩
            · exact Or.inl h
          · exact Or.inr ⟨List.mem_cons_of_mem a h.1, h.2⟩

theorem normStack_plain {l : List (List Char)} (acc : List (List Char))
    (hl : ∀ s ∈ l, plainSeg s) : normStack acc l = l.reverse ++ acc := by
  induction l generalizing acc with
  | nil => rfl
  | cons a r ih =>
    obtain ⟨h1, h2, h3⟩ := hl a (List.mem_cons_self a r)
    rw [show normStack acc (a :: r) = normStack (a :: acc) r by
      simp [normStack, h1, h2, h3]]
    rw [ih (a :: acc) fun s hs => hl s (List.mem_cons_of_mem a hs)]
    simp

instance (s : List Char) : Decidable (plainSeg s) := by
  unfold plainSeg
  infer_instance

theorem normStack_cons_empty (acc l : List (List Char)) :
    normStack acc ([] :: l) = normStack acc l := by
  simp [normStack]

theorem normStack_cons_dot (acc l : List (List Char)) :
    normStack acc (['.'] :: l) = normStack acc l := by
  simp [normStack]

theorem normStack_cons_dotdot (acc l : List (List Char)) :
    normStack acc (['.', '.'] :: l) = normStack acc.tail l := by
  simp [normStack]

theorem normStack_cons_plain {s : List Char} (hs : plainSeg s) (acc l : List (List Char)) :
    normStack acc (s :: l) = normStack (s :: acc) l := by
  simp [normStack, hs.1, hs.2.1, hs.2.2]

theorem norm_of_normed {S : List (List Char)} (hS : ∀ s ∈ S, plainSeg s) :
    normStack [] S.reverse = S := by
  rw [normStack_plain [] (by intro s hs; exact hS s (List.mem_reverse.mp hs))]
  simp

/-- Appending a `".."` segment to a rendered normalized stack pops its
top segment: the model of `join(p, '..')` computing `p`'s parent. -/
theorem joinAbs_parent {S : List (List Char)} {b : List Char}
    (hS : ∀ s ∈ S, plainSeg s ∧ ('/' : Char) ∉ s)
    (hb : plainSeg b) (hb2 : ('/' : Char) ∉ b) :
    joinAbsChars (renderAbs (b :: S)) ['.', '.'] = renderAbs S := by
  have hall : ∀ s ∈ b :: S, plainSeg s ∧ ('/' : Char) ∉ s := by
    intro s hs
    rcases List.mem_cons.mp hs with h | h
    · exact h ▸ ⟨hb, hb2⟩
    · exact hS s h
  have h1 : splitSegs (renderAbs (b :: S)) = [] :: (b :: S).reverse := by
    show splitSegs ('/' :: joinSegs ((b :: S).reverse)) = [] :: (b :: S).reverse
    rw [show splitSegs ('/' :: joinSegs ((b :: S).reverse))
        = [] :: splitSegs (joinSegs ((b :: S).reverse)) from by simp [splitSegs]]
    rw [splitSegs_joinSegs (by simp) (by
      intro s hs
      exact (hall s (List.mem_reverse.mp hs)).2)]
  unfold joinAbsChars
  rw [h1]
  rw [show splitSegs ['.', '.'] = [['.', '.']] from rfl]
  rw [show (([] : List Char) :: (b :: S).reverse) ++ [['.', '.']]
      = [] :: ((b :: S).reverse ++ [['.', '.']]) from by simp]
  rw [normStack_cons_empty, normStack_append]
  rw [norm_of_normed (by intro s hs; exact (hall s hs).1)]
  rw [normStack_cons_dotdot]
  rfl

theorem mem_normStack_nil {cwd : List Char} {s : List Char}
    (hs : s ∈ normStack [] (splitSegs cwd)) : plainSeg s ∧ ('/' : Char) ∉ s := by
  rcases mem_normStack hs with h | h
  · exact absurd h (List.not_mem_nil s)
  · exact ⟨h.2, splitSegs_no_sep h.1⟩

theorem resolveChars_out_result (cwd : List Char) :
    resolveChars cwd "./out/result.png".data
      = renderAbs ("result.png".data :: "out".data :: normStack [] (splitSegs cwd)) := by
  simp only [resolveChars]
  rw [if_neg (by decide : ¬(("./out/result.png".data).head? = some '/'))]
  rw [show splitSegs "./out/result.png".data
      = [['.'], "out".data, "result.png".data] from rfl]
  rw [normStack_append, normStack_cons_dot,
    normStack_cons_plain (by decide), normStack_cons_plain (by decide)]
  rfl

theorem resolveChars_out (cwd : List Char) :
    resolveChars cwd "./out".data
      = renderAbs ("out".data :: normStack [] (splitSegs cwd)) := by
  simp only [resolveChars]
  rw [if_neg (by decide : ¬(("./out".data).head? = some '/'))]
  rw [show splitSegs "./out".data = [['.'], "out".data] from rfl]
  rw [normStack_append, normStack_cons_dot, normStack_cons_plain (by decide)]
  rfl

/-- The parent directory join(finalPath, dot-dot) of the resolved target
`./out/result.png` is the resolved directory `./out`, whatever the
working directory. -/
theorem ensuredDir_out_result (cwd : List Char) :
    joinAbsChars (resolveChars cwd "./out/result.png".data) ['.', '.']
      = resolveChars cwd "./out".data := by
  rw [resolveChars_out_result, resolveChars_out]
  exact joinAbs_parent
    (by
      intro s hs
      rcases List.mem_cons.mp hs with h | h
      · exact h ▸ ⟨by decide, by decide⟩
      · exact mem_normStack_nil h)
    (by decide) (by decide)

/-- The character set the implicit filename-safety claim allows in a
complete generated filename. -/
def filenameSafeChar (c : Char) : Bool :=
  isAsciiAlnum c || c == '_' || c == '-' || c == '.'

theorem filenameSafeChar_not_sep_not_ws {c : Char} (h : filenameSafeChar c = true) :
    ¬(c = '/') ∧ jsIsWs c = false := by
  have hn : (48 ≤ c.toNat ∧ c.toNat ≤ 57) ∨ (65 ≤ c.toNat ∧ c.toNat ≤ 90) ∨
      (97 ≤ c.toNat ∧ c.toNat ≤ 122) ∨ c.toNat = 95 ∨ c.toNat = 45 ∨ c.toNat = 46 := by
    simp only [filenameSafeChar, isAsciiAlnum, Bool.or_eq_true, Bool.and_eq_true,
      decide_eq_true_eq, beq_iff_eq] at h
    rcases h with ((((h | h) | h) | h) | h) | h
    · exact Or.inl h
    · exact Or.inr (Or.inl h)
    · exact Or.inr (Or.inr (Or.inl h))
    · exact Or.inr (Or.inr (Or.inr (Or.inl (by rw [h]; rfl))))
    · exact Or.inr (Or.inr (Or.inr (Or.inr (Or.inl (by rw [h]; rfl)))))
    · exact Or.inr (Or.inr (Or.inr (Or.inr (Or.inr (by rw [h]; rfl)))))
  constructor
  · intro heq
    rw [show c.toNat = ('/' : Char).toNat from by rw [heq]] at hn
    revert hn
    decide
  · rw [Bool.eq_false_iff]
    intro hw
    simp only [jsIsWs, Bool.or_eq_true, Bool.and_eq_true, decide_eq_true_eq] at hw
    omega

theorem replaceWsRuns_chars {l : List Char} (b : Bool)
    (hl : ∀ d ∈ l, isAsciiAlnum d = true ∨ jsIsWs d = true) :
    ∀ c ∈ replaceWsRuns l b, isAsciiAlnum c = true ∨ c = '_' := by
  induction l generalizing b with
  | nil => intro c hc; exact absurd hc (List.not_mem_nil c)
  | cons d rest ih =>
    intro c hc
    have hrest : ∀ e ∈ rest, isAsciiAlnum e = true ∨ jsIsWs e = true :=
      fun e he => hl e (List.mem_cons_of_mem d he)
    by_cases hd : jsIsWs d
    · cases b with
      | true =>
        rw [show replaceWsRuns (d :: rest) true = replaceWsRuns rest true from by
          simp [replaceWsRuns, hd]] at hc
        exact ih true hrest c hc
      | false =>
        rw [show replaceWsRuns (d :: rest) false = '_' :: replaceWsRuns rest true from by
          simp [replaceWsRuns, hd]] at hc
        rcases List.mem_cons.mp hc with h | h
        · exact Or.inr h
        · exact ih true hrest c h
    · rw [show replaceWsRuns (d :: rest) b = d :: replaceWsRuns rest false from by
        simp [replaceWsRuns, hd]] at hc
      rcases List.mem_cons.mp hc with h | h
      · subst h
        rcases hl c (List.mem_cons_self c rest) with h | h
        · exact Or.inl h
        · exact absurd h (by simpa using hd)
      · exact ih false hrest c h

/-- Every character of the derived filename base is alphanumeric or an
underscore. -/
theorem safeDescription_chars (d : Option String) :
    ∀ c ∈ safeDescriptionOf d, isAsciiAlnum c = true ∨ c = '_' := by
  have himage : ∀ c ∈ "image".data, isAsciiAlnum c = true ∨ c = '_' := by decide
  match d with
  | none => exact himage
  | some s =>
    by_cases hs : s = ""
    · simpa [safeDescriptionOf, hs] using himage
    · intro c hc
      simp only [safeDescriptionOf, hs, if_neg] at hc
      have hc2 : c ∈ replaceWsRuns (stripDisallowed s.data) false :=
        List.take_subset 50 _ hc
      refine replaceWsRuns_chars false ?_ c hc2
      intro e he
      have := List.mem_filter.mp he
      simpa [Bool.or_eq_true] using this.2

theorem extensionFor_cases (m : String) :
    extensionFor m = ".png" ∨ extensionFor m = ".jpg" ∨ extensionFor m = ".webp" := by
  unfold extensionFor
  split
  · exact Or.inl rfl
  · split
    · exact Or.inr (Or.inl rfl)
    · split
      · exact Or.inr (Or.inr rfl)
      · exact Or.inl rfl

/-! ## The claims -/

/-- C4: the extension chosen by saveImage is a total deterministic
function of the declared encoding into exactly the set
the set .png, .jpg, .webp: `image/png ↦ .png`, `image/jpeg ↦ .jpg`,
`image/webp ↦ .webp`, and every other string, the empty string included,
maps to `.png`. -/
theorem claim_c4 (mimeType : String) :
    (extensionFor "image/png" = ".png" ∧ extensionFor "image/jpeg" = ".jpg" ∧
      extensionFor "image/webp" = ".webp" ∧ extensionFor "" = ".png") ∧
    (mimeType ≠ "image/png" → mimeType ≠ "image/jpeg" → mimeType ≠ "image/webp" →
      extensionFor mimeType = ".png") ∧
    (extensionFor mimeType = ".png" ∨ extensionFor mimeType = ".jpg" ∨
      extensionFor mimeType = ".webp") := by
  refine ⟨by decide, ?_, extensionFor_cases mimeType⟩
  intro h1 h2 h3
  simp [extensionFor, h1, h2, h3]

theorem claim_c4_witness :
    ("text/html" : String) ≠ "image/png" ∧ extensionFor "text/html" = ".png" :=
  ⟨by decide, (claim_c4 "text/html").2.1 (by decide) (by decide) (by decide)⟩

/-- C2 counterexample: the supplied description `"!!!"` contains no
alphanumeric character, yet the derived filename base is empty rather
than the literal `"image"`: the generated filename is
`_2025-01-02T03-04-05.png`, not `image_2025-01-02T03-04-05.png`. -/
theorem claim_c2_counterexample :
    safeDescriptionOf (some "!!!") = [] ∧
    filenameChars (some "!!!") "2025-01-02T03:04:05.123Z" "image/png"
      = "_2025-01-02T03-04-05.png".data ∧
    filenameChars (some "!!!") "2025-01-02T03:04:05.123Z" "image/png"
      ≠ "image".data ++ "_2025-01-02T03-04-05.png".data := by
  refine ⟨by decide, by decide, by decide⟩

/-- C2 (amended): the literal fallback `"image"` is used only when the
description is missing or the empty string. A supplied non-empty
description with no character in `[A-Za-z0-9]` keeps only its whitespace,
collapsed to underscores; in particular when it also contains no
whitespace the base is empty and the filename is exactly
`_` + timestamp + extension. -/
theorem claim_c2_amended (s : String) (hne : s ≠ "")
    (hchars : ∀ c ∈ s.data, isAsciiAlnum c = false) (isoNow mime : String) :
    safeDescriptionOf (some s) = (replaceWsRuns (s.data.filter jsIsWs) false).take 50 ∧
    safeDescriptionOf none = "image".data ∧
    safeDescriptionOf (some "") = "image".data ∧
    ((∀ c ∈ s.data, jsIsWs c = false) →
      filenameChars (some s) isoNow mime
        = '_' :: (timestampChars isoNow ++ (extensionFor mime).data)) := by
  have hfilter : stripDisallowed s.data = s.data.filter jsIsWs := by
    unfold stripDisallowed
    refine List.filter_congr ?_
    intro c hc
    simp [hchars c hc]
  refine ⟨?_, rfl, rfl, ?_⟩
  · simp [safeDescriptionOf, hne, sanitizeChars, hfilter]
  · intro hws
    have hempty : s.data.filter jsIsWs = [] := by
      rw [List.filter_eq_nil_iff]
      intro c hc
      simp [hws c hc]
    unfold filenameChars
    rw [show safeDescriptionOf (some s)
        = (replaceWsRuns (s.data.filter jsIsWs) false).take 50 from by
      simp [safeDescriptionOf, hne, sanitizeChars, hfilter]]
    rw [hempty]
    rfl

theorem claim_c2_amended_witness :
    safeDescriptionOf (some "!?*") = [] ∧
    filenameChars (some "!?*") "2025-01-02T03:04:05.123Z" "image/webp"
      = "_2025-01-02T03-04-05.webp".data := by
  have h := claim_c2_amended "!?*" (by decide) (by decide)
    "2025-01-02T03:04:05.123Z" "image/webp"
  exact ⟨by rw [h.1]; decide, by rw [h.2.2.2 (by decide)]; decide⟩

/-- C8: when the primary image's decoded metadata provides no
dimensions, the compositor proceeds (totally, non-fatally) with
1024 x 1024 as the primary dimensions, and the 1024 fallback is
substituted independently for each missing axis. -/
theorem claim_c8 (wmMeta : ImageMetadata) (pos : Option WatermarkPosition) :
    addWatermarkLayout ⟨none, none⟩ wmMeta pos
      = addWatermarkLayout ⟨some 1024, some 1024⟩ wmMeta pos ∧
    (∀ hOpt, addWatermarkLayout ⟨none, hOpt⟩ wmMeta pos
      = addWatermarkLayout ⟨some 1024, hOpt⟩ wmMeta pos) ∧
    (∀ wOpt, addWatermarkLayout ⟨wOpt, none⟩ wmMeta pos
      = addWatermarkLayout ⟨wOpt, some 1024⟩ wmMeta pos) ∧
    jsOrNat none 1024 = 1024 := by
  refine ⟨?_, ?_, ?_, rfl⟩
  · simp [addWatermarkLayout, jsOrNat]
  · intro hOpt
    simp [addWatermarkLayout, jsOrNat]
  · intro wOpt
    simp [addWatermarkLayout, jsOrNat]

/-- C9: a generate_image invocation whose description is missing, empty,
or whitespace-only fails with the invalid-params error before the remote
model is consulted and with no filesystem effect; the outcome does not
depend on the remote model at all. -/
theorem claim_c9 (decode : String → List Nat)
    (composite : List Nat → String → WatermarkPosition → List Nat)
    (fs : FsState) (isoNow : String) (genOutcome : Except String ImageData)
    (args : GenerateImageArgs)
    (hbad : args.description = none ∨ args.description = some "" ∨
      ∃ s, args.description = some s ∧ ∀ c ∈ s.data, jsIsWs c = true) :
    handleGenerateImage decode composite fs isoNow genOutcome args
      = { modelCalled := false, fileWritten := none, dirEnsured := none,
          mkdirCalled := false,
          outcome := Except.error (McpErrorKind.invalidParams
            "Description is required to generate an image") } ∧
    (∀ genOutcome2, handleGenerateImage decode composite fs isoNow genOutcome args
      = handleGenerateImage decode composite fs isoNow genOutcome2 args) := by
  have hinvalid : descriptionInvalid args.description = true := by
    rcases hbad with h | h | ⟨s, hs, hws⟩
    · simp [descriptionInvalid, h]
    · simp [descriptionInvalid, h]
    · rw [hs]
      unfold descriptionInvalid
      have htrim : jsTrim s.data = [] := by
        unfold jsTrim
        rw [List.dropWhile_eq_nil_iff.mpr (fun c hc => hws c hc)]
        rfl
      simp [htrim]
  exact ⟨by simp [handleGenerateImage, hinvalid],
    fun genOutcome2 => by simp [handleGenerateImage, hinvalid]⟩

theorem claim_c9_witness :
    handleGenerateImage (fun _ => []) (fun b _ _ => b) ⟨"/w", fun _ => false⟩
        "2025-01-02T03:04:05.123Z" (Except.ok ⟨"QQ==", "image/png"⟩)
        { description := some "   " }
      = { modelCalled := false, fileWritten := none, dirEnsured := none,
          mkdirCalled := false,
          outcome := Except.error (McpErrorKind.invalidParams
            "Description is required to generate an image") } :=
  (claim_c9 (fun _ => []) (fun b _ _ => b) ⟨"/w", fun _ => false⟩
    "2025-01-02T03:04:05.123Z" (Except.ok ⟨"QQ==", "image/png"⟩)
    { description := some "   " }
    (Or.inr (Or.inr ⟨"   ", rfl, by decide⟩))).1

theorem tsReplace_digit {c : Char} (h : isAsciiDigit c = true) :
    (if c = ':' ∨ c = '.' then '-' else c) = c := by
  rw [if_neg]
  rintro (rfl | rfl) <;> revert h <;> decide

theorem digit_alnum {c : Char} (h : isAsciiDigit c = true) : isAsciiAlnum c = true := by
  simp only [isAsciiDigit, Bool.and_eq_true, decide_eq_true_eq] at h
  simp only [isAsciiAlnum, Bool.or_eq_true, Bool.and_eq_true, decide_eq_true_eq]
  omega

theorem digit_safe {c : Char} (h : isAsciiDigit c = true) : filenameSafeChar c = true := by
  simp [filenameSafeChar, digit_alnum h]

/-- Rendering the timestamp of a well-formed ISO instant: `':'` and `'.'`
become `'-'` and the final five characters (milliseconds and zone) are
dropped, leaving the shape `YYYY-MM-DDTHH-MM-SS`. -/
theorem timestampChars_mkIso
    (y1 y2 y3 y4 mo1 mo2 d1 d2 h1 h2 mi1 mi2 s1 s2 f1 f2 f3 : Char)
    (hdig : ∀ c ∈ [y1, y2, y3, y4, mo1, mo2, d1, d2, h1, h2, mi1, mi2, s1, s2, f1, f2, f3],
      isAsciiDigit c = true) :
    timestampChars (String.mk (mkIsoChars y1 y2 y3 y4 mo1 mo2 d1 d2 h1 h2 mi1 mi2 s1 s2 f1 f2 f3))
      = mkTimestampShape y1 y2 y3 y4 mo1 mo2 d1 d2 h1 h2 mi1 mi2 s1 s2 := by
  have e1 := tsReplace_digit (hdig y1 (by simp))
  have e2 := tsReplace_digit (hdig y2 (by simp))
  have e3 := tsReplace_digit (hdig y3 (by simp))
  have e4 := tsReplace_digit (hdig y4 (by simp))
  have e5 := tsReplace_digit (hdig mo1 (by simp))
  have e6 := tsReplace_digit (hdig mo2 (by simp))
  have e7 := tsReplace_digit (hdig d1 (by simp))
  have e8 := tsReplace_digit (hdig d2 (by simp))
  have e9 := tsReplace_digit (hdig h1 (by simp))
  have e10 := tsReplace_digit (hdig h2 (by simp))
  have e11 := tsReplace_digit (hdig mi1 (by simp))
  have e12 := tsReplace_digit (hdig mi2 (by simp))
  have e13 := tsReplace_digit (hdig s1 (by simp))
  have e14 := tsReplace_digit (hdig s2 (by simp))
  simp only [timestampChars, mkIsoChars, mkTimestampShape, List.map_cons, List.map_nil,
    e1, e2, e3, e4, e5, e6, e7, e8, e9, e10, e11, e12, e13, e14]
  rfl

/-- C3: for every non-empty description the generated filename is the
sanitized base (characters outside `[A-Za-z0-9\s]` removed, maximal
whitespace runs collapsed to single underscores, truncated to at most 50
characters), an underscore, the timestamp in the shape
`YYYY-MM-DDTHH-MM-SS` (ISO instant with `':'` and `'.'` turned into `'-'`
and the sub-second/zone suffix dropped), and the extension from the
declared encoding; when the sanitized form reaches 50 characters the base
is cut to exactly 50. -/
theorem claim_c3 (d : String) (hne : d ≠ "") (mime : String)
    (y1 y2 y3 y4 mo1 mo2 dd1 dd2 h1 h2 mi1 mi2 s1 s2 f1 f2 f3 : Char)
    (hdig : ∀ c ∈ [y1, y2, y3, y4, mo1, mo2, dd1, dd2, h1, h2, mi1, mi2, s1, s2, f1, f2, f3],
      isAsciiDigit c = true) :
    filenameChars (some d)
        (String.mk (mkIsoChars y1 y2 y3 y4 mo1 mo2 dd1 dd2 h1 h2 mi1 mi2 s1 s2 f1 f2 f3))
        mime
      = specSanitize d.data ++ '_' ::
          (mkTimestampShape y1 y2 y3 y4 mo1 mo2 dd1 dd2 h1 h2 mi1 mi2 s1 s2
            ++ (extensionFor mime).data) ∧
    (50 ≤ (collapseRuns (stripDisallowed d.data)).length →
      (safeDescriptionOf (some d)).length = 50) ∧
    (timestampChars
        (String.mk (mkIsoChars y1 y2 y3 y4 mo1 mo2 dd1 dd2 h1 h2 mi1 mi2 s1 s2 f1 f2 f3))).length
      = 19 := by
  have hsan : safeDescriptionOf (some d) = specSanitize d.data := by
    rw [show safeDescriptionOf (some d)
        = if d = "" then "image".data else sanitizeChars d.data from rfl]
    rw [if_neg hne]
    unfold specSanitize sanitizeChars stripDisallowed
    rw [(replaceWsRuns_eq_collapseRuns _).1]
  have hts := timestampChars_mkIso y1 y2 y3 y4 mo1 mo2 dd1 dd2 h1 h2 mi1 mi2 s1 s2 f1 f2 f3 hdig
  refine ⟨?_, ?_, ?_⟩
  · unfold filenameChars
    rw [hsan, hts]
  · intro hlen
    rw [hsan]
    unfold specSanitize
    rw [List.length_take]
    rw [show (stripDisallowed d.data) = d.data.filter fun c => isAsciiAlnum c || jsIsWs c from rfl] at hlen
    exact Nat.min_eq_left hlen
  · rw [hts]
    rfl

theorem claim_c3_witness :
    filenameChars (some "A cat!")
        (String.mk (mkIsoChars '2' '0' '2' '5' '0' '1' '0' '2' '0' '3' '0' '4' '0' '5' '1' '2' '3'))
        "image/jpeg"
      = specSanitize "A cat!".data ++ '_' ::
          (mkTimestampShape '2' '0' '2' '5' '0' '1' '0' '2' '0' '3' '0' '4' '0' '5'
            ++ (extensionFor "image/jpeg").data) :=
  (claim_c3 "A cat!" (by decide) "image/jpeg"
    '2' '0' '2' '5' '0' '1' '0' '2' '0' '3' '0' '4' '0' '5' '1' '2' '3' (by decide)).1

/-- C10 (implicit): for every description the derived filename base
contains only characters in `[A-Za-z0-9_]`, and the complete generated
filename contains no path separator, no whitespace, and no character
outside alphanumerics, underscore, hyphen and dot — a caller-supplied
description cannot redirect the write through the filename. -/
theorem claim_c10 (d : Option String) (mime : String)
    (y1 y2 y3 y4 mo1 mo2 dd1 dd2 h1 h2 mi1 mi2 s1 s2 f1 f2 f3 : Char)
    (hdig : ∀ c ∈ [y1, y2, y3, y4, mo1, mo2, dd1, dd2, h1, h2, mi1, mi2, s1, s2, f1, f2, f3],
      isAsciiDigit c = true) :
    (∀ c ∈ safeDescriptionOf d, isAsciiAlnum c = true ∨ c = '_') ∧
    (∀ c ∈ filenameChars d
        (String.mk (mkIsoChars y1 y2 y3 y4 mo1 mo2 dd1 dd2 h1 h2 mi1 mi2 s1 s2 f1 f2 f3))
        mime,
      filenameSafeChar c = true ∧ ¬(c = '/') ∧ jsIsWs c = false) := by
  refine ⟨safeDescription_chars d, ?_⟩
  intro c hc
  have hsafe : filenameSafeChar c = true := by
    unfold filenameChars at hc
    rcases List.mem_append.mp hc with hmem | hmem
    · rcases safeDescription_chars d c hmem with h | h
      · simp [filenameSafeChar, h]
      · simp [filenameSafeChar, h]
    · rcases List.mem_cons.mp hmem with h | hmem2
      · simp [filenameSafeChar, h]
      · rcases List.mem_append.mp hmem2 with hts | hext
        · rw [timestampChars_mkIso y1 y2 y3 y4 mo1 mo2 dd1 dd2 h1 h2 mi1 mi2 s1 s2 f1 f2 f3 hdig] at hts
          simp only [mkTimestampShape, List.mem_cons, List.not_mem_nil, or_false] at hts
          rcases hts with h | h | h | h | h | h | h | h | h | h |
              h | h | h | h | h | h | h | h | h <;>
            first
              | (rw [h]; decide)
              | (rw [h]; exact digit_safe (hdig _ (by simp)))
        · rcases extensionFor_cases mime with h | h | h <;> rw [h] at hext
          · rw [show (".png" : String).data = ['.', 'p', 'n', 'g'] from rfl] at hext
            simp only [List.mem_cons, List.not_mem_nil, or_false] at hext
            rcases hext with rfl | rfl | rfl | rfl <;> decide
          · rw [show (".jpg" : String).data = ['.', 'j', 'p', 'g'] from rfl] at hext
            simp only [List.mem_cons, List.not_mem_nil, or_false] at hext
            rcases hext with rfl | rfl | rfl | rfl <;> decide
          · rw [show (".webp" : String).data = ['.', 'w', 'e', 'b', 'p'] from rfl] at hext
            simp only [List.mem_cons, List.not_mem_nil, or_false] at hext
            rcases hext with rfl | rfl | rfl | rfl | rfl <;> decide
  exact ⟨hsafe, filenameSafeChar_not_sep_not_ws hsafe⟩

theorem claim_c10_witness :
    filenameSafeChar 'a' = true ∧ ¬('a' = '/') ∧ jsIsWs 'a' = false :=
  (claim_c10 (some "a/b c ../..") "image/png"
    '2' '0' '2' '5' '0' '1' '0' '2' '0' '3' '0' '4' '0' '5' '1' '2' '3' (by decide)).2
    'a' (by decide)

/-- C5: path resolution follows exactly the four exclusive cases, in
order: no hint (or the falsy empty hint) resolves the derived filename
against the cwd; a hint ending in `'/'` is a directory the filename is
joined onto; an extension-less hint whose resolution exists on disk is a
directory the filename is joined onto; otherwise the hint (resolved) is
itself the target and the derived filename is discarded. -/
theorem claim_c5 (fs : FsState) (outputPath : Option String) (filename : List Char) :
    resolvePath fs outputPath filename = resolvePathSpec fs outputPath filename := by
  match outputPath with
  | none => rfl
  | some p =>
    by_cases h0 : p = ""
    · simp [resolvePath, resolvePathSpec, h0]
    · by_cases h1 : endsWithSep p.data = true
      · simp [resolvePath, resolvePathSpec, h0, h1]
      · by_cases h2 : extnameChars p.data = []
        · by_cases h3 : fs.pathExists (String.mk (resolveChars fs.cwd.data p.data)) = true
          · simp [resolvePath, resolvePathSpec, h0, h1, h2, h3]
          · simp [resolvePath, resolvePathSpec, h0, h1, h2, h3]
        · simp [resolvePath, resolvePathSpec, h0, h1, h2]

/-- C1: when a watermarkPath is supplied whose resolution does not exist
on disk, saveImage still succeeds, writes exactly the base64-decoded
payload, applies no watermark, and its whole result (path included) is
identical to the result with no watermarkPath supplied. -/
theorem claim_c1 (decode : String → List Nat)
    (composite : List Nat → String → WatermarkPosition → List Nat)
    (fs : FsState) (isoNow : String) (imageData : ImageData)
    (options : SaveImageOptions) (wp : String)
    (hwp : options.watermarkPath = some wp)
    (hmissing : fs.pathExists (String.mk (resolveChars fs.cwd.data wp.data)) = false) :
    (saveImage decode composite fs isoNow imageData options).writtenBytes
      = decode imageData.base64 ∧
    saveImage decode composite fs isoNow imageData options
      = saveImage decode composite fs isoNow imageData
          { options with watermarkPath := none } ∧
    (saveImage decode composite fs isoNow imageData options).watermarkApplied = false := by
  refine ⟨?_, ?_, ?_⟩
  · simp [saveImage, hwp, hmissing]
  · simp [saveImage, watermarkActive, hwp, hmissing]
  · simp [saveImage, watermarkActive, hwp, hmissing]

theorem claim_c1_witness :
    (saveImage (fun _ => [7, 7]) (fun b _ _ => 0 :: b) ⟨"/w", fun _ => false⟩
        "2025-01-02T03:04:05.123Z" ⟨"QQ==", "image/png"⟩
        { watermarkPath := some "wm.png" }).writtenBytes = [7, 7] ∧
    saveImage (fun _ => [7, 7]) (fun b _ _ => 0 :: b) ⟨"/w", fun _ => false⟩
        "2025-01-02T03:04:05.123Z" ⟨"QQ==", "image/png"⟩
        { watermarkPath := some "wm.png" }
      = saveImage (fun _ => [7, 7]) (fun b _ _ => 0 :: b) ⟨"/w", fun _ => false⟩
          "2025-01-02T03:04:05.123Z" ⟨"QQ==", "image/png"⟩
          { watermarkPath := none } ∧
    (saveImage (fun _ => [7, 7]) (fun b _ _ => 0 :: b) ⟨"/w", fun _ => false⟩
        "2025-01-02T03:04:05.123Z" ⟨"QQ==", "image/png"⟩
        { watermarkPath := some "wm.png" }).watermarkApplied = false :=
  claim_c1 (fun _ => [7, 7]) (fun b _ _ => 0 :: b) ⟨"/w", fun _ => false⟩
    "2025-01-02T03:04:05.123Z" ⟨"QQ==", "image/png"⟩
    { watermarkPath := some "wm.png" } "wm.png" rfl rfl

/-- C6 counterexample: with working directory `/work`, the output hint
`./out/result.png` makes saveImage return the absolute path
`/work/out/result.png`: the returned final path is not the literal
string `./out/result.png` the claim states. -/
theorem claim_c6_counterexample :
    (saveImage (fun _ => []) (fun b _ _ => b) ⟨"/work", fun _ => false⟩
        "2025-01-02T03:04:05.123Z" ⟨"QQ==", "image/png"⟩
        { outputPath := some "./out/result.png" }).returnedPath
      = "/work/out/result.png" ∧
    (saveImage (fun _ => []) (fun b _ _ => b) ⟨"/work", fun _ => false⟩
        "2025-01-02T03:04:05.123Z" ⟨"QQ==", "image/png"⟩
        { outputPath := some "./out/result.png" }).returnedPath
      ≠ "./out/result.png" := by
  refine ⟨by decide, by decide⟩

theorem resolvePath_out_result (fs : FsState) (fname : List Char) :
    resolvePath fs (some "./out/result.png") fname
      = resolveChars fs.cwd.data "./out/result.png".data := by
  rw [show resolvePath fs (some "./out/result.png") fname
      = if ("./out/result.png" : String) = "" then resolveChars fs.cwd.data fname
        else if endsWithSep "./out/result.png".data
            || (decide (extnameChars "./out/result.png".data = [])
                && fs.pathExists (String.mk (resolveChars fs.cwd.data "./out/result.png".data)))
          then joinAbsChars (resolveChars fs.cwd.data "./out/result.png".data) fname
          else resolveChars fs.cwd.data "./out/result.png".data from rfl]
  rw [if_neg (by decide : ¬(("./out/result.png" : String) = ""))]
  rw [show endsWithSep "./out/result.png".data = false from by decide]
  rw [show decide (extnameChars "./out/result.png".data = []) = false from by decide]
  simp

/-- C6 (amended): for the hint `./out/result.png` saveImage honors the
hint as the literal target: it returns the hint's resolution against the
working directory (the absolute path denoting `./out/result.png`, not
the literal relative string), discards the derived filename, and ensures
the parent directory — the resolution of `./out` — creating it exactly
when it is missing, before the bytes are written. -/
theorem claim_c6_amended (decode : String → List Nat)
    (composite : List Nat → String → WatermarkPosition → List Nat)
    (fs : FsState) (isoNow : String) (imageData : ImageData)
    (description watermarkPath : Option String) (pos : Option WatermarkPosition) :
    (saveImage decode composite fs isoNow imageData
        { outputPath := some "./out/result.png", description := description,
          watermarkPath := watermarkPath, watermarkPosition := pos }).returnedPath
      = String.mk (resolveChars fs.cwd.data "./out/result.png".data) ∧
    (saveImage decode composite fs isoNow imageData
        { outputPath := some "./out/result.png", description := description,
          watermarkPath := watermarkPath, watermarkPosition := pos }).ensuredDir
      = String.mk (resolveChars fs.cwd.data "./out".data) ∧
    (saveImage decode composite fs isoNow imageData
        { outputPath := some "./out/result.png", description := description,
          watermarkPath := watermarkPath, watermarkPosition := pos }).mkdirCalled
      = !fs.pathExists (String.mk (resolveChars fs.cwd.data "./out".data)) := by
  refine ⟨?_, ?_, ?_⟩
  · show String.mk (resolvePath fs (some "./out/result.png") _) = _
    rw [resolvePath_out_result]
  · show String.mk (joinAbsChars (resolvePath fs (some "./out/result.png") _) ['.', '.']) = _
    rw [resolvePath_out_result, ensuredDir_out_result]
  · show (!fs.pathExists (String.mk
        (joinAbsChars (resolvePath fs (some "./out/result.png") _) ['.', '.']))) = _
    rw [resolvePath_out_result, ensuredDir_out_result]

/-- C7: the compositor's geometry: square bounding box side
`floor(W * 0.25)`, width-based padding `floor(W * 0.03)` on both axes,
`left = W - w - padding` for right-aligned corners and `left = padding`
otherwise, `top = H - h - padding` for bottom-aligned corners and
`top = padding` otherwise, with bottom-right the default corner; for
`W = H = 1000` the box is 250 x 250, the padding 30, and bottom-right
placement `(1000 - w - 30, 1000 - h - 30)`. -/
theorem claim_c7 (W H w h : Nat) (pos : WatermarkPosition)
    (hW : 0 < W) (hH : 0 < H) (hw : 0 < w) (hh : 0 < h) :
    watermarkSizeOf W = W / 4 ∧
    paddingOf W = 3 * W / 100 ∧
    addWatermarkLayout ⟨some W, some H⟩ ⟨some w, some h⟩ (some pos)
      = (if isRightPos pos then (W : Int) - (w : Int) - ((paddingOf W : Nat) : Int)
           else ((paddingOf W : Nat) : Int),
         if isBottomPos pos then (H : Int) - (h : Int) - ((paddingOf W : Nat) : Int)
           else ((paddingOf W : Nat) : Int)) ∧
    addWatermarkLayout ⟨some W, some H⟩ ⟨some w, some h⟩ none
      = addWatermarkLayout ⟨some W, some H⟩ ⟨some w, some h⟩
          (some WatermarkPosition.bottomRight) ∧
    watermarkSizeOf 1000 = 250 ∧
    paddingOf 1000 = 30 ∧
    addWatermarkLayout ⟨some 1000, some 1000⟩ ⟨some w, some h⟩
        (some WatermarkPosition.bottomRight)
      = ((1000 : Int) - (w : Int) - 30, (1000 : Int) - (h : Int) - 30) := by
  have hW0 : W ≠ 0 := Nat.pos_iff_ne_zero.mp hW
  have hH0 : H ≠ 0 := Nat.pos_iff_ne_zero.mp hH
  have hw0 : w ≠ 0 := Nat.pos_iff_ne_zero.mp hw
  have hh0 : h ≠ 0 := Nat.pos_iff_ne_zero.mp hh
  refine ⟨rfl, rfl, ?_, rfl, by decide, by decide, ?_⟩
  · simp [addWatermarkLayout, jsOrNat, hW0, hH0, hw0, hh0, paddingOf]
  · simp [addWatermarkLayout, jsOrNat, hw0, hh0, watermarkSizeOf, paddingOf,
      isRightPos, isBottomPos]

theorem claim_c7_witness :
    addWatermarkLayout ⟨some 1000, some 1000⟩ ⟨some 200, some 180⟩
        (some WatermarkPosition.bottomRight)
      = ((1000 : Int) - ((200 : Nat) : Int) - 30, (1000 : Int) - ((180 : Nat) : Int) - 30) :=
  (claim_c7 1000 1000 200 180 WatermarkPosition.bottomRight (by decide) (by decide)
    (by decide) (by decide)).2.2.2.2.2.2

end GeminiImageMcp
